import Mathlib

/-!
Verification model of `src/ring.py` (python-dynamo): a consistent-hashing ring.

The Python class `Ring` keeps
  * `_vnode_hashes` — a sorted list of ring positions,
  * `_nodes`        — a dict mapping a position to the owning hostname,
  * `_vnode_mapping`— a defaultdict(set) mapping a node id to its positions,
  * `_generate_hash`— an md5-based lambda from strings to big integers.

Python dicts are modelled as association lists (insertion order preserved,
unique keys maintained by the operations), Python sets of ints as duplicate-free
lists, and the md5 lambda as an opaque function `String → Nat` stored on the
instance exactly as the source stores the lambda (md5 is external library code).
The `bisect` stdlib functions are modelled by their specification on sorted
lists, which is the only way the source applies them.  A raised Python
exception is modelled by `PyResult.err` carrying the message and the object
state at raise time (the object is mutated in place, so mutations committed
before the raise stay visible).
-/

namespace Dynamo

/-- Result of calling a mutating Python method: a normal return with the object
state, or a raised exception message together with the state at raise time. -/
inductive PyResult (α : Type) where
  | ok (state : α)
  | err (msg : String) (state : α)

/-- Object state after the call, whether or not an exception was raised. -/
def PyResult.state {α : Type} : PyResult α → α
  | .ok s => s
  | .err _ s => s

/-- Did the call return normally? -/
def PyResult.isOk {α : Type} : PyResult α → Bool
  | .ok _ => true
  | .err _ _ => false

/-- Membership test `k in d` for a Python dict modelled as an association list. -/
def dictContains (d : List (Nat × String)) (k : Nat) : Bool :=
  d.any (fun p => p.1 == k)

/-- Lookup `d[k]` for a Python dict; `none` models a raised `KeyError`. -/
def dictGet (d : List (Nat × String)) (k : Nat) : Option String :=
  (d.find? (fun p => p.1 == k)).map Prod.snd

/-- Assignment `d[k] = v` for a Python dict: overwrite if the key is present,
otherwise append the new entry. -/
def dictInsert (d : List (Nat × String)) (k : Nat) (v : String) : List (Nat × String) :=
  if dictContains d k then d.map (fun p => if p.1 == k then (p.1, v) else p)
  else d ++ [(k, v)]

/-- Deletion `del d[k]`; `none` models the `KeyError` raised when `k` is absent. -/
def dictDelete? (d : List (Nat × String)) (k : Nat) : Option (List (Nat × String)) :=
  if dictContains d k then some (d.eraseP (fun p => p.1 == k)) else none

/-- Insertion into a Python set of ints, modelled as a duplicate-free list. -/
def setAdd (s : List Nat) (x : Nat) : List Nat :=
  if x ∈ s then s else s ++ [x]

/-- Lookup `m.get(k, None)` on the `_vnode_mapping` defaultdict (plain `.get`
does not insert a default entry). -/
def mappingGet (m : List (String × List Nat)) (k : String) : Option (List Nat) :=
  (m.find? (fun p => p.1 == k)).map Prod.snd

/-- The statement `m[k].add(x)` on a `defaultdict(set)`: accessing an absent key
creates an empty set, then `x` is added to the set stored under `k`. -/
def mappingAdd (m : List (String × List Nat)) (k : String) (x : Nat) :
    List (String × List Nat) :=
  if m.any (fun p => p.1 == k) then
    m.map (fun p => if p.1 == k then (p.1, setAdd p.2 x) else p)
  else m ++ [(k, [x])]

/-- Specification of Python `bisect.bisect` (right bisection) on a sorted list:
the number of elements not exceeding `x`. -/
def bisect_right (l : List Nat) (x : Nat) : Nat :=
  l.countP (fun y => decide (y ≤ x))

/-- Specification of Python `bisect.bisect_left` on a sorted list:
the number of elements strictly below `x`. -/
def bisect_left (l : List Nat) (x : Nat) : Nat :=
  l.countP (fun y => decide (y < x))

/-- Specification of Python `bisect.insort` on a sorted list: insert `x` after
any equal elements, keeping the list sorted. -/
def insort (l : List Nat) (x : Nat) : List Nat :=
  match l with
  | [] => [x]
  | y :: ys => if x < y then x :: y :: ys else y :: insort ys x

/-- Python list indexing `l[i]` with negative-index wraparound: a negative
index counts from the end; an index out of range on either side raises
`IndexError`, modelled by `none`. -/
def pyGet (l : List Nat) (i : Int) : Option Nat :=
  if i < 0 then
    if i + l.length < 0 then none else l[(i + l.length).toNat]?
  else l[i.toNat]?

/-- Statement `del l[i]` on a Python list (here only used with a non-negative
index); `none` models the `IndexError` raised when `i` is out of range. -/
def eraseIdx? (l : List Nat) (i : Nat) : Option (List Nat) :=
  if i < l.length then some (l.eraseIdx i) else none

/-- State of the Python `Ring` object.  The `ip_to_hostname` / `hostname_to_ip`
dicts are DNS bookkeeping outside the core (spec §2 calls them incidental
plumbing) and are not modelled. -/
structure Ring where
  vnode_count : Nat
  replica_count : Nat
  vnode_mapping : List (String × List Nat)
  vnode_hashes : List Nat
  nodes : List (Nat × String)
  generate_hash : String → Nat

/-- Model of `Ring.__init__`.  The source ignores the `vnode_count` argument and
hard-codes `self.vnode_count = 1` ("for now, only 1 vnode is supported"). -/
def mkRing (vnode_count_arg replica_count : Nat) (generate_hash : String → Nat) : Ring :=
  { vnode_count := 1
    replica_count := replica_count
    vnode_mapping := []
    vnode_hashes := []
    nodes := []
    generate_hash := generate_hash }

/-- Model of `_generate_vnode_ids`: the ids `node_id + '_' + str(i)` for
`i in range(vnode_count)`. -/
def generate_vnode_ids (r : Ring) (node_id : String) : List String :=
  (List.range r.vnode_count).map (fun i => node_id ++ "_" ++ toString i)

/-- The single virtual-node identifier `node_id + "_" + str(0)` (that is,
`node_id ++ "_0"`) produced when `vnode_count = 1`. -/
def vnodeId (node_id : String) : String := node_id ++ "_" ++ "0"

/-- Body of the `for vnode_id in ...` loop of `Ring.__setitem__`.  A raise
aborts the loop but keeps the mutations committed by earlier iterations. -/
def setitemLoop (node_id hostname : String) : Ring → List String → PyResult Ring
  | r, [] => .ok r
  | r, vnode_id :: rest =>
    let vnode_hash := r.generate_hash vnode_id
    if dictContains r.nodes vnode_hash then
      .err ("Node id " ++ vnode_id ++ " is already present") r
    else
      setitemLoop node_id hostname
        { r with
          nodes := dictInsert r.nodes vnode_hash hostname
          vnode_hashes := insort r.vnode_hashes vnode_hash
          vnode_mapping := mappingAdd r.vnode_mapping node_id vnode_hash } rest

/-- Model of `Ring.__setitem__`: add a node given its id and hostname. -/
def setitem (r : Ring) (node_id hostname : String) : PyResult Ring :=
  setitemLoop node_id hostname r (generate_vnode_ids r node_id)

/-- Body of the `for vnode_hash in vnode_hashes` loop of `Ring.__delitem__`:
delete the position from `_nodes`, then delete the element at index
`bisect_left(_vnode_hashes, vnode_hash)` from `_vnode_hashes`.  Note the loop
never touches `_vnode_mapping`. -/
def delitemLoop : Ring → List Nat → PyResult Ring
  | r, [] => .ok r
  | r, vnode_hash :: rest =>
    match dictDelete? r.nodes vnode_hash with
    | none => .err "KeyError" r
    | some nodes1 =>
      match eraseIdx? r.vnode_hashes (bisect_left r.vnode_hashes vnode_hash) with
      | none => .err "IndexError" { r with nodes := nodes1 }
      | some hashes1 =>
        delitemLoop { r with nodes := nodes1, vnode_hashes := hashes1 } rest

/-- Model of `Ring.__delitem__`: remove a node given its id.  The guard
`if not vnode_hashes` fires both when the id is absent and when its recorded
set of positions is empty. -/
def delitem (r : Ring) (node_id : String) : PyResult Ring :=
  match mappingGet r.vnode_mapping node_id with
  | none => .err "Node id not in the ring" r
  | some vnode_hashes =>
    if vnode_hashes.isEmpty then .err "Node id not in the ring" r
    else delitemLoop r vnode_hashes

/-- Model of `Ring._get_nearest_hash_index`: right-bisect for the key hash and
wrap to index `0` when the result is `len(_vnode_hashes)`. -/
def get_nearest_hash_index (r : Ring) (key_hash : Nat) : Nat :=
  let nearest_hash_index := bisect_right r.vnode_hashes key_hash
  if nearest_hash_index = r.vnode_hashes.length then 0
  else nearest_hash_index

/-- Model of `Ring.__getitem__` (= `get_node_for_key`): hostname responsible
for a key; `none` models the `IndexError` raised on an empty ring. -/
def getitem (r : Ring) (key : String) : Option String :=
  let key_hash := r.generate_hash key
  let hash_index := get_nearest_hash_index r key_hash
  match r.vnode_hashes[hash_index]? with
  | none => none
  | some h => dictGet r.nodes h

/-- Model of `Ring.__len__` (= `size()`): `len(_nodes) // vnode_count`. -/
def size (r : Ring) : Nat :=
  r.nodes.length / r.vnode_count

/-- Model of `Ring.__contains__`: hash the first virtual-node id and test for
membership among the keys of `_nodes`; `none` models the `IndexError` on
`vnode_ids[0]` when `vnode_count = 0` (never the case in the source). -/
def contains (r : Ring) (node_id : String) : Option Bool :=
  match generate_vnode_ids r node_id with
  | [] => none
  | vnode_id :: _ => some (dictContains r.nodes (r.generate_hash vnode_id))

/-- Model of `Ring.get_all_hosts`: the hostnames stored in `_nodes`
(the Python `set(...)` wrapper is modelled by the list of values). -/
def get_all_hosts (r : Ring) : List String :=
  r.nodes.map Prod.snd

/-- Body of the `for x in range(hash_index+1, hash_index+replica_count+1)` loop
of `get_replicas_for_key`, run over the list of loop indices.  The modular
reduction `x % len(_vnode_hashes)` raises `ZeroDivisionError` on an empty list,
modelled by `none`. -/
def replicasLoop (r : Ring) : List Nat → Option (List String)
  | [] => some []
  | x :: rest =>
    if r.vnode_hashes.length = 0 then none
    else
      match r.vnode_hashes[x % r.vnode_hashes.length]? with
      | none => none
      | some pos =>
        match dictGet r.nodes pos with
        | none => none
        | some host => (replicasLoop r rest).map (fun tail => host :: tail)

/-- Model of `Ring.get_replicas_for_key`: the `replica_count` hostnames at the
ring positions following the key's primary position. -/
def get_replicas_for_key (r : Ring) (key : String) : Option (List String) :=
  let key_hash := r.generate_hash key
  let hash_index := get_nearest_hash_index r key_hash
  replicasLoop r (List.range' (hash_index + 1) r.replica_count)

/-- Model of `Ring.get_handoff_node`.  The source first translates an IP to a
hostname through the `ip_to_hostname` bookkeeping dict (DNS plumbing outside
the core, cf. the commented-out `hostname = node_ip` line); the model takes the
hostname directly. -/
def get_handoff_node (r : Ring) (hostname : String) : Option String :=
  match generate_vnode_ids r hostname with
  | [] => none
  | vnode_id :: _ =>
    let index := get_nearest_hash_index r (r.generate_hash vnode_id)
    if r.vnode_hashes.length = 0 then none
    else
      let handoff_index := (index + r.replica_count) % r.vnode_hashes.length
      match r.vnode_hashes[handoff_index]? with
      | none => none
      | some pos => dictGet r.nodes pos

/-- Model of `Ring.get_key_range`: the pair
`(_vnode_hashes[index-2], _vnode_hashes[index-1])` where `index` is the nearest
hash index of the node's own position; Python negative-index wraparound is
modelled by `pyGet`, and `none` models a raised `IndexError`. -/
def get_key_range (r : Ring) (hostname : String) : Option (Nat × Nat) :=
  match generate_vnode_ids r hostname with
  | [] => none
  | vnode_id :: _ =>
    let index : Int := (get_nearest_hash_index r (r.generate_hash vnode_id) : Nat)
    match pyGet r.vnode_hashes (index - 2), pyGet r.vnode_hashes (index - 1) with
    | some start_key, some end_key => some (start_key, end_key)
    | _, _ => none

/-- Well-formedness invariant of a ring state: one virtual node per physical
node (as hard-coded by `__init__`), a strictly sorted position list, and the
position list carrying exactly the keys of `_nodes`. -/
@[reducible] def WF (r : Ring) : Prop :=
  r.vnode_count = 1 ∧
  r.vnode_hashes.Sorted (· < ·) ∧
  r.vnode_hashes.Perm (r.nodes.map Prod.fst)

/-- Successor lookup as the spec words it (claim side): the smallest ring
position strictly greater than the key hash, wrapping to the smallest position
in the ring when no position is strictly greater. -/
def ring_successor (positions : List Nat) (key_hash : Nat) : Option Nat :=
  match (positions.filter (fun p => decide (key_hash < p))).min? with
  | some p => some p
  | none => positions.min?

/-- Walking the ring forward (claim side): `k` successive applications of
`ring_successor` starting from a position `p`. -/
def ring_succ_iter (l : List Nat) (p : Nat) : Nat → Option Nat
  | 0 => some p
  | k + 1 =>
    match ring_succ_iter l p k with
    | none => none
    | some q => ring_successor l q

/-- Replaying `add_node` calls (node id = hostname, exactly as `add_node`
passes them to `__setitem__`) over a list of identifiers, stopping at the
first failure — how a caller builds a ring from scratch (spec §3 lifecycle). -/
def addAll (r : Ring) : List String → PyResult Ring
  | [] => .ok r
  | nid :: rest =>
    match setitem r nid nid with
    | .ok r1 => addAll r1 rest
    | .err m s => .err m s

/-- Definition following C5's words (claim side): locate the node's own
position's index `i` in the sorted sequence and return the two positions
immediately preceding that index in ring order — the positions at indices
`i - 2` and `i - 1` modulo the length. -/
def claimed_key_range (r : Ring) (X : String) : Option (Nat × Nat) :=
  match
    r.vnode_hashes[(r.vnode_hashes.indexOf (r.generate_hash (vnodeId X))
      + r.vnode_hashes.length - 2) % r.vnode_hashes.length]?,
    r.vnode_hashes[(r.vnode_hashes.indexOf (r.generate_hash (vnodeId X))
      + r.vnode_hashes.length - 1) % r.vnode_hashes.length]? with
  | some start_key, some end_key => some (start_key, end_key)
  | _, _ => none

/-- A simple deterministic stand-in for the md5 lambda on concrete test rings:
the string length (the hash function's statistical quality is irrelevant to the
control flow under test, only determinism is used). -/
def hashLen : String → Nat := String.length

/-- Ring with `replica_count = 2` and nodes `a`, `bb`, `ccc` at positions
`3`, `4`, `5` (lengths of `a_0`, `bb_0`, `ccc_0`). -/
def ringABC : Ring := (addAll (mkRing 1 2 hashLen) ["a", "bb", "ccc"]).state

/-- Ring with `replica_count = 2` and the single node `a` at position `3`. -/
def ringA : Ring := (addAll (mkRing 1 2 hashLen) ["a"]).state

/-- Ring with `replica_count = 2` and nodes `a`, `bb` at positions `3`, `4`. -/
def ringAB : Ring := (addAll (mkRing 1 2 hashLen) ["a", "bb"]).state

/-- Ring with `replica_count = 1` and nodes `a`, `bb` at positions `3`, `4`. -/
def ringAB1 : Ring := (addAll (mkRing 1 1 hashLen) ["a", "bb"]).state

/-- The same node set as `ringABC`, added in the reverse order. -/
def ringCBA : Ring := (addAll (mkRing 1 2 hashLen) ["ccc", "bb", "a"]).state

/-! ### Generic lemmas about `insort`, `bisect` and sorted lists -/

theorem insort_perm (l : List Nat) (x : Nat) : (insort l x).Perm (x :: l) := by
  induction l with
  | nil => simp [insort]
  | cons y ys ih =>
    by_cases h : x < y
    · simp [insort, h]
    · simp only [insort, if_neg h]
      exact ((ih.cons y).trans (List.Perm.swap x y ys))

theorem mem_insort {l : List Nat} {x z : Nat} :
    z ∈ insort l x ↔ z = x ∨ z ∈ l := by
  rw [(insort_perm l x).mem_iff, List.mem_cons]

theorem insort_sorted_le {l : List Nat} (hs : l.Sorted (· ≤ ·)) (x : Nat) :
    (insort l x).Sorted (· ≤ ·) := by
  induction l with
  | nil => simp [insort]
  | cons y ys ih =>
    rw [List.sorted_cons] at hs
    by_cases h : x < y
    · simp only [insort, if_pos h]
      rw [List.sorted_cons]
      refine ⟨?_, List.sorted_cons.2 hs⟩
      intro b hb
      rcases List.mem_cons.1 hb with rfl | hb
      · exact Nat.le_of_lt h
      · exact Nat.le_trans (Nat.le_of_lt h) (hs.1 b hb)
    · simp only [insort, if_neg h]
      rw [List.sorted_cons]
      refine ⟨?_, ih hs.2⟩
      intro b hb
      rcases mem_insort.1 hb with rfl | hb
      · exact Nat.le_of_not_lt h
      · exact hs.1 b hb

theorem insort_sorted {l : List Nat} (hs : l.Sorted (· < ·)) {x : Nat} (hx : x ∉ l) :
    (insort l x).Sorted (· < ·) := by
  induction l with
  | nil => simp [insort]
  | cons y ys ih =>
    rw [List.sorted_cons] at hs
    by_cases h : x < y
    · simp only [insort, if_pos h]
      rw [List.sorted_cons]
      refine ⟨?_, List.sorted_cons.2 hs⟩
      intro b hb
      rcases List.mem_cons.1 hb with rfl | hb
      · exact h
      · exact Nat.lt_trans h (hs.1 b hb)
    · simp only [insort, if_neg h]
      have hxy : x ≠ y := fun hxe => hx (hxe ▸ List.mem_cons_self y ys)
      have hyx : y < x := Nat.lt_of_le_of_ne (Nat.le_of_not_lt h) (fun he => hxy he.symm)
      rw [List.sorted_cons]
      refine ⟨?_, ih hs.2 (fun hm => hx (List.mem_cons_of_mem y hm))⟩
      intro b hb
      rcases mem_insort.1 hb with rfl | hb
      · exact hyx
      · exact hs.1 b hb

theorem foldl_insort_perm (l : List Nat) (init : List Nat) :
    (l.foldl insort init).Perm (init ++ l) := by
  induction l generalizing init with
  | nil => simp
  | cons a t ih =>
    have h1 : ((a :: t).foldl insort init) = t.foldl insort (insort init a) := rfl
    have h2 : (t.foldl insort (insort init a)).Perm ((insort init a) ++ t) :=
      ih (insort init a)
    have h3 : ((insort init a) ++ t).Perm ((a :: init) ++ t) :=
      (insort_perm init a).append_right t
    have h4 : ((a :: init) ++ t).Perm (init ++ a :: t) := by
      simpa using (@List.perm_middle Nat a init t).symm
    rw [h1]
    exact (h2.trans h3).trans h4

theorem foldl_insort_sorted_le (l : List Nat) (init : List Nat)
    (hs : init.Sorted (· ≤ ·)) : (l.foldl insort init).Sorted (· ≤ ·) := by
  induction l generalizing init with
  | nil => exact hs
  | cons a t ih => exact ih (insort init a) (insort_sorted_le hs a)

/-- Permuted inputs give the same `insort` fold: both results are `≤`-sorted
and permutations of the same multiset, hence equal. -/
theorem foldl_insort_eq_of_perm {l1 l2 : List Nat} (hp : l1.Perm l2) :
    l1.foldl insort [] = l2.foldl insort [] := by
  have hs1 : (l1.foldl insort []).Sorted (· ≤ ·) :=
    foldl_insort_sorted_le l1 [] (by simp)
  have hs2 : (l2.foldl insort []).Sorted (· ≤ ·) :=
    foldl_insort_sorted_le l2 [] (by simp)
  have hperm : (l1.foldl insort []).Perm (l2.foldl insort []) :=
    ((foldl_insort_perm l1 []).trans (hp.append_left [])).trans
      (foldl_insort_perm l2 []).symm
  exact List.eq_of_perm_of_sorted hperm hs1 hs2

theorem bisect_right_cons (a : Nat) (l : List Nat) (k : Nat) :
    bisect_right (a :: l) k = bisect_right l k + if a ≤ k then 1 else 0 := by
  simp [bisect_right, List.countP_cons]

theorem bisect_left_cons (a : Nat) (l : List Nat) (k : Nat) :
    bisect_left (a :: l) k = bisect_left l k + if a < k then 1 else 0 := by
  simp [bisect_left, List.countP_cons]

theorem bisect_right_le_length (l : List Nat) (k : Nat) :
    bisect_right l k ≤ l.length :=
  List.countP_le_length (fun y => decide (y ≤ k))

theorem bisect_right_eq_zero {l : List Nat} {k : Nat} (h : ∀ x ∈ l, k < x) :
    bisect_right l k = 0 :=
  List.countP_eq_zero.2 (fun a ha => by simpa using Nat.not_le.2 (h a ha))

theorem bisect_left_eq_zero {l : List Nat} {k : Nat} (h : ∀ x ∈ l, k ≤ x) :
    bisect_left l k = 0 :=
  List.countP_eq_zero.2 (fun a ha => by simpa using Nat.not_lt.2 (h a ha))

/-- On a sorted list, the element at the right-bisection index of `k` is the
head of the list of elements strictly greater than `k`. -/
theorem getElem_bisect_right {l : List Nat} (hs : l.Sorted (· < ·)) (k : Nat) :
    l[bisect_right l k]? = (l.filter (fun y => decide (k < y))).head? := by
  induction l with
  | nil => simp [bisect_right]
  | cons a t ih =>
    rw [List.sorted_cons] at hs
    by_cases h : a ≤ k
    · rw [bisect_right_cons, if_pos h]
      rw [List.getElem?_cons_succ]
      have hfilter : List.filter (fun y => decide (k < y)) (a :: t)
          = List.filter (fun y => decide (k < y)) t := by
        simp [List.filter_cons, Nat.not_lt.2 h]
      rw [hfilter]
      exact ih hs.2
    · have hka : k < a := Nat.lt_of_not_le h
      have ht0 : bisect_right t k = 0 :=
        bisect_right_eq_zero (fun x hx => Nat.lt_trans hka (hs.1 x hx))
      rw [bisect_right_cons, if_neg h, ht0]
      simp [List.filter_cons, hka]

/-- Right bisection of an element present at index `i` of a sorted list lands
one past that index. -/
theorem bisect_right_getElem {l : List Nat} (hs : l.Sorted (· < ·)) :
    ∀ {i : Nat} {h : Nat}, l[i]? = some h → bisect_right l h = i + 1 := by
  induction l with
  | nil => intro i h hg; simp at hg
  | cons a t ih =>
    intro i h hg
    rw [List.sorted_cons] at hs
    cases i with
    | zero =>
      simp only [List.getElem?_cons_zero, Option.some_inj] at hg
      subst hg
      have ht0 : bisect_right t a = 0 := bisect_right_eq_zero (fun x hx => hs.1 x hx)
      rw [bisect_right_cons, ht0, if_pos (Nat.le_refl a)]
    | succ j =>
      rw [List.getElem?_cons_succ] at hg
      have hmem : h ∈ t := List.getElem?_mem hg
      have hah : a ≤ h := Nat.le_of_lt (hs.1 h hmem)
      rw [bisect_right_cons, if_pos hah, ih hs.2 hg]

/-- Left bisection of an element present at index `i` of a sorted list lands
exactly at that index. -/
theorem bisect_left_getElem {l : List Nat} (hs : l.Sorted (· < ·)) :
    ∀ {i : Nat} {h : Nat}, l[i]? = some h → bisect_left l h = i := by
  induction l with
  | nil => intro i h hg; simp at hg
  | cons a t ih =>
    intro i h hg
    rw [List.sorted_cons] at hs
    cases i with
    | zero =>
      simp only [List.getElem?_cons_zero, Option.some_inj] at hg
      subst hg
      have ht0 : bisect_left t a = 0 :=
        bisect_left_eq_zero (fun x hx => Nat.le_of_lt (hs.1 x hx))
      rw [bisect_left_cons, ht0, if_neg (Nat.lt_irrefl a)]
    | succ j =>
      rw [List.getElem?_cons_succ] at hg
      have hmem : h ∈ t := List.getElem?_mem hg
      have hah : a < h := hs.1 h hmem
      rw [bisect_left_cons, if_pos hah, ih hs.2 hg]

/-- Deleting at the left-bisection index of `h` from a sorted list leaves a
list not containing `h` (this is how `__delitem__` removes one position). -/
theorem not_mem_eraseIdx_bisect_left {l : List Nat} (hs : l.Sorted (· < ·)) (h : Nat) :
    h ∉ l.eraseIdx (bisect_left l h) := by
  induction l with
  | nil => simp [bisect_left]
  | cons a t ih =>
    rw [List.sorted_cons] at hs
    by_cases hah : a < h
    · rw [bisect_left_cons, if_pos hah, List.eraseIdx_cons_succ]
      intro hmem
      rcases List.mem_cons.1 hmem with rfl | hmem
      · exact Nat.lt_irrefl _ hah
      · exact ih hs.2 hmem
    · have hha : h ≤ a := Nat.le_of_not_lt hah
      have ht0 : bisect_left t h = 0 :=
        bisect_left_eq_zero (fun x hx => Nat.le_trans hha (Nat.le_of_lt (hs.1 x hx)))
      rw [bisect_left_cons, ht0, if_neg hah, List.eraseIdx_cons_zero]
      intro hmem
      exact Nat.lt_irrefl h (Nat.lt_of_le_of_lt hha (hs.1 h hmem))

theorem sorted_filter_gt {l : List Nat} (hs : l.Sorted (· < ·)) (k : Nat) :
    (l.filter (fun y => decide (k < y))).Sorted (· < ·) :=
  List.Pairwise.filter _ hs

theorem foldl_min_eq_self {t : List Nat} {a : Nat} (h : ∀ x ∈ t, a ≤ x) :
    t.foldl min a = a := by
  induction t with
  | nil => rfl
  | cons b t ih =>
    have hab : min a b = a := Nat.min_eq_left (h b (List.mem_cons_self b t))
    simp only [List.foldl_cons, hab]
    exact ih (fun x hx => h x (List.mem_cons_of_mem b hx))

/-- The minimum of a sorted list is its head. -/
theorem sorted_min?_eq_head? {l : List Nat} (hs : l.Sorted (· < ·)) :
    l.min? = l.head? := by
  cases l with
  | nil => rfl
  | cons a t =>
    rw [List.sorted_cons] at hs
    rw [List.min?_cons', List.head?_cons,
      foldl_min_eq_self (fun x hx => Nat.le_of_lt (hs.1 x hx))]

/-- The claim-side successor lookup coincides with the element the code's
nearest-hash-index points at: `bisect_right` and wrap to `0` at the end. -/
theorem ring_successor_eq_getElem {l : List Nat} (hs : l.Sorted (· < ·))
    (hne : l ≠ []) (k : Nat) :
    ring_successor l k
      = l[if bisect_right l k = l.length then 0 else bisect_right l k]? := by
  by_cases hc : bisect_right l k = l.length
  · have hall : ∀ x ∈ l, x ≤ k := by
      have := List.countP_eq_length.1 hc
      intro x hx
      simpa using this x hx
    have hfil : l.filter (fun y => decide (k < y)) = [] := by
      rw [List.filter_eq_nil_iff]
      intro x hx
      simp [Nat.not_lt.2 (hall x hx)]
    rw [if_pos hc]
    unfold ring_successor
    rw [hfil]
    simp only [List.min?_nil]
    rw [sorted_min?_eq_head? hs, List.head?_eq_getElem?]
  · have hlt : bisect_right l k < l.length :=
      Nat.lt_of_le_of_ne (bisect_right_le_length l k) hc
    rw [if_neg hc]
    have hfil : l[bisect_right l k]? = (l.filter (fun y => decide (k < y))).head? :=
      getElem_bisect_right hs k
    have hsome : ∃ v, l[bisect_right l k]? = some v := by
      rw [List.getElem?_eq_getElem hlt]
      exact ⟨_, rfl⟩
    rcases hsome with ⟨v, hv⟩
    unfold ring_successor
    rw [sorted_min?_eq_head? (sorted_filter_gt hs k), ← hfil, hv]

/-- On a sorted list, the successor of the element at index `i` is the element
at index `(i+1) % length` — the next position on the ring, wrapping around. -/
theorem ring_successor_getElem {l : List Nat} (hs : l.Sorted (· < ·))
    {i h : Nat} (hg : l[i]? = some h) :
    ring_successor l h = l[(i + 1) % l.length]? := by
  have hne : l ≠ [] := by
    intro he
    rw [he] at hg
    simp at hg
  have hb : bisect_right l h = i + 1 := bisect_right_getElem hs hg
  have hil : i < l.length := (List.getElem?_eq_some_iff.1 hg).1
  rw [ring_successor_eq_getElem hs hne h, hb]
  by_cases hc : i + 1 = l.length
  · rw [if_pos hc, hc, Nat.mod_self]
  · rw [if_neg hc, Nat.mod_eq_of_lt (Nat.lt_of_le_of_ne hil hc)]

/-- Iterating the successor `k` times from the element at index `i` lands at
index `(i + k) % length`. -/
theorem ring_succ_iter_getElem {l : List Nat} (hs : l.Sorted (· < ·))
    {i h : Nat} (hg : l[i]? = some h) (k : Nat) :
    ring_succ_iter l h k = l[(i + k) % l.length]? := by
  have hil : i < l.length := (List.getElem?_eq_some_iff.1 hg).1
  have hlen : 0 < l.length := Nat.lt_of_le_of_lt (Nat.zero_le i) hil
  induction k with
  | zero =>
    simp only [ring_succ_iter, Nat.add_zero]
    rw [Nat.mod_eq_of_lt hil, hg]
  | succ j ih =>
    have hjl : (i + j) % l.length < l.length := Nat.mod_lt _ hlen
    have hsome : ∃ q, l[(i + j) % l.length]? = some q := by
      rw [List.getElem?_eq_getElem hjl]
      exact ⟨_, rfl⟩
    rcases hsome with ⟨q, hq⟩
    simp only [ring_succ_iter]
    rw [ih, hq]
    show ring_successor l q = l[(i + (j + 1)) % l.length]?
    rw [ring_successor_getElem hs hq]
    rw [Nat.mod_add_mod, ← Nat.add_assoc]

/-- The code's nearest-hash-index of a position present at index `i` of the
sorted position list is `(i + 1) % length`: one past the node's own index,
wrapping to `0` from the last index. -/
theorem get_nearest_present {r : Ring} (hs : r.vnode_hashes.Sorted (· < ·))
    {i h : Nat} (hg : r.vnode_hashes[i]? = some h) :
    get_nearest_hash_index r h = (i + 1) % r.vnode_hashes.length := by
  have hb : bisect_right r.vnode_hashes h = i + 1 := bisect_right_getElem hs hg
  have hil : i < r.vnode_hashes.length := (List.getElem?_eq_some_iff.1 hg).1
  unfold get_nearest_hash_index
  rw [hb]
  by_cases hc : i + 1 = r.vnode_hashes.length
  · rw [if_pos hc, hc, Nat.mod_self]
  · rw [if_neg hc, Nat.mod_eq_of_lt (Nat.lt_of_le_of_ne hil hc)]

/-- The nearest-hash-index is always in range on a non-empty position list. -/
theorem get_nearest_lt {r : Ring} (hne : r.vnode_hashes ≠ []) (k : Nat) :
    get_nearest_hash_index r k < r.vnode_hashes.length := by
  have hlen : 0 < r.vnode_hashes.length := List.length_pos.2 hne
  unfold get_nearest_hash_index
  by_cases hc : bisect_right r.vnode_hashes k = r.vnode_hashes.length
  · rw [if_pos hc]; exact hlen
  · rw [if_neg hc]
    exact Nat.lt_of_le_of_ne (bisect_right_le_length _ k) hc

/-! ### Lemmas about the dict and mapping models -/

theorem dictContains_iff {d : List (Nat × String)} {k : Nat} :
    dictContains d k = true ↔ k ∈ d.map Prod.fst := by
  simp only [dictContains, List.any_eq_true, List.mem_map]
  constructor
  · rintro ⟨p, hp, he⟩
    exact ⟨p, hp, by simpa using he⟩
  · rintro ⟨p, hp, he⟩
    exact ⟨p, hp, by simp [he]⟩

theorem dictContains_eq_false_iff {d : List (Nat × String)} {k : Nat} :
    dictContains d k = false ↔ k ∉ d.map Prod.fst := by
  rw [← dictContains_iff]
  cases dictContains d k <;> simp

theorem dictGet_mem {d : List (Nat × String)} {k : Nat} {v : String}
    (h : dictGet d k = some v) : (k, v) ∈ d := by
  unfold dictGet at h
  rcases Option.map_eq_some'.1 h with ⟨p, hfind, hv⟩
  have hp : p ∈ d := List.mem_of_find?_eq_some hfind
  have hk : p.1 = k := by
    have := List.find?_some hfind
    simpa using this
  have : p = (k, v) := by
    cases p
    simp only at hk hv
    simp [hk, hv]
  exact this ▸ hp

theorem dictGet_isSome_of_mem {d : List (Nat × String)} {k : Nat}
    (h : k ∈ d.map Prod.fst) : ∃ v, dictGet d k = some v := by
  induction d with
  | nil => simp at h
  | cons p t ih =>
    by_cases hk : p.1 = k
    · refine ⟨p.2, ?_⟩
      unfold dictGet
      rw [List.find?_cons_of_pos _ (by simp [hk])]
      rfl
    · have hmem : k ∈ t.map Prod.fst := by
        rcases List.mem_map.1 h with ⟨q, hq, he⟩
        rcases List.mem_cons.1 hq with rfl | hq
        · exact absurd he hk
        · exact List.mem_map.2 ⟨q, hq, he⟩
      rcases ih hmem with ⟨v, hv⟩
      refine ⟨v, ?_⟩
      unfold dictGet at hv ⊢
      rw [List.find?_cons_of_neg _ (by simp [hk]), hv]

/-- A key's value is a registered hostname. -/
theorem dictGet_mem_values {d : List (Nat × String)} {k : Nat} {v : String}
    (h : dictGet d k = some v) : v ∈ d.map Prod.snd :=
  List.mem_map.2 ⟨(k, v), dictGet_mem h, rfl⟩

/-- With duplicate-free keys and duplicate-free values, distinct keys hold
distinct values. -/
theorem dictGet_inj {d : List (Nat × String)} (hkeys : (d.map Prod.fst).Nodup)
    (hvals : (d.map Prod.snd).Nodup) {k1 k2 : Nat} {v : String}
    (h1 : dictGet d k1 = some v) (h2 : dictGet d k2 = some v) : k1 = k2 := by
  have hm1 : (k1, v) ∈ d := dictGet_mem h1
  have hm2 : (k2, v) ∈ d := dictGet_mem h2
  by_contra hne
  rcases List.getElem_of_mem hm1 with ⟨i, hi, he1⟩
  rcases List.getElem_of_mem hm2 with ⟨j, hj, he2⟩
  have hij : i ≠ j := by
    intro he
    subst he
    rw [he1] at he2
    exact hne (congrArg Prod.fst he2)
  have hvi : (d.map Prod.snd)[i]? = some v := by
    rw [List.getElem?_map, List.getElem?_eq_getElem hi, he1]
    rfl
  have hvj : (d.map Prod.snd)[j]? = some v := by
    rw [List.getElem?_map, List.getElem?_eq_getElem hj, he2]
    rfl
  have hnd := List.nodup_iff_getElem?_ne_getElem?.1 hvals
  rcases Nat.lt_or_ge i j with hlt | hge
  · exact (hnd i j hlt (by simpa using hj)) (by rw [hvi, hvj])
  · rcases Nat.lt_or_ge j i with hlt2 | hge2
    · exact (hnd j i hlt2 (by simpa using hi)) (by rw [hvi, hvj])
    · exact hij (by omega)

theorem dictInsert_fresh {d : List (Nat × String)} {k : Nat} (v : String)
    (h : dictContains d k = false) : dictInsert d k v = d ++ [(k, v)] := by
  unfold dictInsert
  rw [h]
  simp

theorem dictContains_insert_self (d : List (Nat × String)) (k : Nat) (v : String) :
    dictContains (dictInsert d k v) k = true := by
  unfold dictInsert
  by_cases h : dictContains d k = true
  · rw [if_pos h]
    rw [dictContains_iff] at h ⊢
    have hfst : (d.map (fun p => if p.1 == k then (p.1, v) else p)).map Prod.fst
        = d.map Prod.fst := by
      rw [List.map_map]
      apply List.map_congr_left
      intro p _
      by_cases hp : (p.1 == k) = true
      · simp [Function.comp, hp]
      · simp [Function.comp, hp]
    rw [hfst]
    exact h
  · rw [if_neg h]
    rw [dictContains_iff]
    simp

/-- Erasing an entry by key leaves no entry under that key when keys are
duplicate-free. -/
theorem contains_eraseP_self {d : List (Nat × String)} {k : Nat}
    (hkeys : (d.map Prod.fst).Nodup) :
    dictContains (d.eraseP (fun p => p.1 == k)) k = false := by
  induction d with
  | nil => simp [dictContains]
  | cons p t ih =>
    rw [List.map_cons, List.nodup_cons] at hkeys
    by_cases hk : p.1 = k
    · rw [List.eraseP_cons_of_pos (by simp [hk])]
      rw [dictContains_eq_false_iff]
      rw [← hk]
      exact hkeys.1
    · rw [List.eraseP_cons_of_neg (by simp [hk])]
      unfold dictContains
      simp only [List.any_cons, Bool.or_eq_false_iff]
      constructor
      · simpa using hk
      · exact ih hkeys.2

theorem dictDelete?_eq_some {d d1 : List (Nat × String)} {k : Nat}
    (h : dictDelete? d k = some d1) :
    d1 = d.eraseP (fun p => p.1 == k) ∧ dictContains d k = true := by
  unfold dictDelete? at h
  by_cases hc : dictContains d k = true
  · rw [if_pos hc] at h
    exact ⟨(Option.some_inj.1 h).symm, hc⟩
  · rw [if_neg hc] at h
    simp at h

theorem setAdd_mem (s : List Nat) (x : Nat) : x ∈ setAdd s x := by
  unfold setAdd
  by_cases h : x ∈ s
  · rw [if_pos h]; exact h
  · rw [if_neg h]; simp

/-- After `m[k].add(x)` the set recorded under `k` contains `x`. -/
theorem mappingAdd_mem (m : List (String × List Nat)) (k : String) (x : Nat) :
    x ∈ (mappingGet (mappingAdd m k x) k).getD [] := by
  induction m with
  | nil => simp [mappingAdd, mappingGet, setAdd]
  | cons p t ih =>
    by_cases hk : p.1 = k
    · have hany : (p :: t).any (fun q => q.1 == k) = true := by
        simp [List.any_cons, hk]
      unfold mappingAdd
      rw [if_pos hany]
      rw [List.map_cons]
      unfold mappingGet
      rw [if_pos (by simp [hk])]
      rw [List.find?_cons_of_pos _ (by simp [hk])]
      simpa using setAdd_mem p.2 x
    · by_cases hany : t.any (fun q => q.1 == k) = true
      · have hany2 : (p :: t).any (fun q => q.1 == k) = true := by
          simp only [List.any_cons, Bool.or_eq_true]
          exact Or.inr hany
        unfold mappingAdd at ih ⊢
        rw [if_pos hany2]
        rw [if_pos hany] at ih
        rw [List.map_cons]
        have hfp : (if (p.1 == k) = true then (p.1, setAdd p.2 x) else p) = p :=
          if_neg (by simp [hk])
        rw [hfp]
        unfold mappingGet at ih ⊢
        rw [List.find?_cons_of_neg _ (by simp [hk])]
        exact ih
      · have hany2 : ¬ ((p :: t).any (fun q => q.1 == k) = true) := by
          simp only [List.any_cons, Bool.or_eq_true]
          rintro (hc | hc)
          · exact hk (by simpa using hc)
          · exact hany hc
        unfold mappingAdd at ih ⊢
        rw [if_neg hany2]
        rw [if_neg hany] at ih
        rw [List.cons_append]
        unfold mappingGet at ih ⊢
        rw [List.find?_cons_of_neg _ (by simp [hk])]
        exact ih

/-! ### Characterizations of the ring operations -/

theorem gen_ids_one {r : Ring} (h1 : r.vnode_count = 1) (nid : String) :
    generate_vnode_ids r nid = [vnodeId nid] := by
  unfold generate_vnode_ids vnodeId
  rw [h1]
  rfl

/-- With one virtual node, `__setitem__` reduces to a single duplicate check
followed by the three insertions. -/
theorem setitem_eq {r : Ring} (h1 : r.vnode_count = 1) (nid host : String) :
    setitem r nid host =
      if dictContains r.nodes (r.generate_hash (vnodeId nid)) then
        .err ("Node id " ++ vnodeId nid ++ " is already present") r
      else .ok { r with
        nodes := dictInsert r.nodes (r.generate_hash (vnodeId nid)) host
        vnode_hashes := insort r.vnode_hashes (r.generate_hash (vnodeId nid))
        vnode_mapping := mappingAdd r.vnode_mapping nid (r.generate_hash (vnodeId nid)) } := by
  unfold setitem
  rw [gen_ids_one h1]
  by_cases h : dictContains r.nodes (r.generate_hash (vnodeId nid)) = true
  · rw [if_pos h]
    simp only [setitemLoop]
    rw [if_pos h]
  · rw [if_neg h]
    simp only [setitemLoop]
    rw [if_neg h]

/-- With one virtual node, `__contains__` reduces to the dict membership test
on the hash of the single virtual-node id. -/
theorem contains_eq {r : Ring} (h1 : r.vnode_count = 1) (nid : String) :
    contains r nid = some (dictContains r.nodes (r.generate_hash (vnodeId nid))) := by
  unfold contains
  rw [gen_ids_one h1]

/-- With one virtual node, `get_key_range` reduces to the two negative-offset
list accesses from the nearest hash index of the node's own hash. -/
theorem get_key_range_eq {r : Ring} (h1 : r.vnode_count = 1) (X : String) :
    get_key_range r X =
      match
        pyGet r.vnode_hashes
          ((get_nearest_hash_index r (r.generate_hash (vnodeId X)) : Int) - 2),
        pyGet r.vnode_hashes
          ((get_nearest_hash_index r (r.generate_hash (vnodeId X)) : Int) - 1) with
      | some start_key, some end_key => some (start_key, end_key)
      | _, _ => none := by
  unfold get_key_range
  rw [gen_ids_one h1]

/-- With one virtual node, `get_handoff_node` reduces to the single modular
index computation from the nearest hash index of the node's own hash. -/
theorem get_handoff_node_eq {r : Ring} (h1 : r.vnode_count = 1) (X : String) :
    get_handoff_node r X =
      (if r.vnode_hashes.length = 0 then none
       else
         match r.vnode_hashes[(get_nearest_hash_index r (r.generate_hash (vnodeId X))
             + r.replica_count) % r.vnode_hashes.length]? with
         | none => none
         | some pos => dictGet r.nodes pos) := by
  unfold get_handoff_node
  rw [gen_ids_one h1]

theorem eraseIdx?_eq_some {l : List Nat} {i : Nat} {l2 : List Nat}
    (h : eraseIdx? l i = some l2) : l2 = l.eraseIdx i ∧ i < l.length := by
  unfold eraseIdx? at h
  by_cases hc : i < l.length
  · rw [if_pos hc] at h
    exact ⟨(Option.some_inj.1 h).symm, hc⟩
  · rw [if_neg hc] at h
    cases h

/-- A successful deletion loop only shrinks `_nodes` and `_vnode_hashes` and
touches nothing else — in particular `_vnode_mapping` is left as it was. -/
theorem delitemLoop_ok_fields {hs : List Nat} : ∀ {r r2 : Ring},
    delitemLoop r hs = .ok r2 →
    r2.vnode_mapping = r.vnode_mapping ∧ r2.generate_hash = r.generate_hash ∧
    r2.vnode_count = r.vnode_count ∧ r2.replica_count = r.replica_count ∧
    r2.nodes.Sublist r.nodes ∧ r2.vnode_hashes.Sublist r.vnode_hashes := by
  induction hs with
  | nil =>
    intro r r2 h
    simp only [delitemLoop] at h
    cases h
    exact ⟨rfl, rfl, rfl, rfl, List.Sublist.refl _, List.Sublist.refl _⟩
  | cons w rest ih =>
    intro r r2 h
    rw [delitemLoop] at h
    split at h
    next => cases h
    next nodes1 hd =>
      split at h
      next => cases h
      next hashes1 he =>
        obtain ⟨hmap, hgen, hvc, hrc, hsubn, hsubh⟩ := ih h
        obtain ⟨hn1, _⟩ := dictDelete?_eq_some hd
        obtain ⟨hh1, _⟩ := eraseIdx?_eq_some he
        refine ⟨hmap, hgen, hvc, hrc, ?_, ?_⟩
        · exact hsubn.trans (hn1 ▸ List.eraseP_sublist r.nodes)
        · exact hsubh.trans (hh1 ▸ List.eraseIdx_sublist r.vnode_hashes _)

/-- After a successful deletion loop every processed position is gone from
both the position list and the position-to-host dict. -/
theorem delitemLoop_absent {hs : List Nat} : ∀ {r r2 : Ring},
    r.vnode_hashes.Sorted (· < ·) → (r.nodes.map Prod.fst).Nodup →
    delitemLoop r hs = .ok r2 →
    ∀ v ∈ hs, v ∉ r2.vnode_hashes ∧ dictContains r2.nodes v = false := by
  induction hs with
  | nil =>
    intro r r2 _ _ _ v hv
    simp at hv
  | cons w rest ih =>
    intro r r2 hsort hkeys h v hv
    rw [delitemLoop] at h
    split at h
    next => cases h
    next nodes1 hd =>
      split at h
      next => cases h
      next hashes1 he =>
        obtain ⟨hn1, _⟩ := dictDelete?_eq_some hd
        obtain ⟨hh1, _⟩ := eraseIdx?_eq_some he
        have hsort1 : hashes1.Sorted (· < ·) := by
          rw [hh1]
          exact hsort.sublist (List.eraseIdx_sublist r.vnode_hashes _)
        have hkeys1 : (nodes1.map Prod.fst).Nodup := by
          rw [hn1]
          exact hkeys.sublist ((List.eraseP_sublist r.nodes).map Prod.fst)
        rcases List.mem_cons.1 hv with rfl | hv2
        · have hnotmem : v ∉ hashes1 := by
            rw [hh1]
            exact not_mem_eraseIdx_bisect_left hsort v
          have hnotcont : dictContains nodes1 v = false := by
            rw [hn1]
            exact contains_eraseP_self hkeys
          obtain ⟨_, _, _, _, hsubn, hsubh⟩ := delitemLoop_ok_fields h
          constructor
          · intro hmem
            exact hnotmem (hsubh.subset hmem)
          · rw [dictContains_eq_false_iff]
            intro hmemk
            exact (dictContains_eq_false_iff.1 hnotcont)
              ((hsubn.map Prod.fst).subset hmemk)
        · exact ih hsort1 hkeys1 h v hv2

/-- Well-formedness is preserved by a successful node insertion. -/
theorem WF_setitem {r r2 : Ring} (hWF : WF r) {nid host : String}
    (h : setitem r nid host = .ok r2) : WF r2 := by
  obtain ⟨h1, hsort, hperm⟩ := hWF
  rw [setitem_eq h1] at h
  by_cases hc : dictContains r.nodes (r.generate_hash (vnodeId nid)) = true
  · rw [if_pos hc] at h
    cases h
  · rw [if_neg hc] at h
    have hc2 : dictContains r.nodes (r.generate_hash (vnodeId nid)) = false := by
      cases hb : dictContains r.nodes (r.generate_hash (vnodeId nid))
      · rfl
      · exact absurd hb hc
    have hfreshk : r.generate_hash (vnodeId nid) ∉ r.nodes.map Prod.fst :=
      dictContains_eq_false_iff.1 hc2
    have hfresh : r.generate_hash (vnodeId nid) ∉ r.vnode_hashes := by
      intro hm
      exact hfreshk (hperm.mem_iff.1 hm)
    cases h
    refine ⟨h1, insort_sorted hsort hfresh, ?_⟩
    rw [dictInsert_fresh host hc2, List.map_append]
    have hp1 : (insort r.vnode_hashes (r.generate_hash (vnodeId nid))).Perm
        (r.generate_hash (vnodeId nid) :: r.vnode_hashes) :=
      insort_perm _ _
    have hp2 : (r.generate_hash (vnodeId nid) :: r.vnode_hashes).Perm
        (r.generate_hash (vnodeId nid) :: r.nodes.map Prod.fst) :=
      hperm.cons _
    have hp3 : (r.generate_hash (vnodeId nid) :: r.nodes.map Prod.fst).Perm
        (r.nodes.map Prod.fst ++ [(r.generate_hash (vnodeId nid), host)].map Prod.fst) := by
      simpa using (List.perm_append_singleton _ _).symm
    exact (hp1.trans hp2).trans hp3

/-- Successor-lookup form of `__getitem__` on a sorted non-empty ring: it
returns the host owning the claim-side ring successor of the key hash. -/
theorem getitem_eq {r : Ring} (hsort : r.vnode_hashes.Sorted (· < ·))
    (hne : r.vnode_hashes ≠ []) (key : String) :
    ∃ p, ring_successor r.vnode_hashes (r.generate_hash key) = some p ∧
      p ∈ r.vnode_hashes ∧ getitem r key = dictGet r.nodes p := by
  have hidx : get_nearest_hash_index r (r.generate_hash key) < r.vnode_hashes.length :=
    get_nearest_lt hne _
  have hsucc : ring_successor r.vnode_hashes (r.generate_hash key)
      = r.vnode_hashes[get_nearest_hash_index r (r.generate_hash key)]? := by
    rw [ring_successor_eq_getElem hsort hne]
    rfl
  have hget : r.vnode_hashes[get_nearest_hash_index r (r.generate_hash key)]?
      = some (r.vnode_hashes.get ⟨get_nearest_hash_index r (r.generate_hash key), hidx⟩) :=
    List.getElem?_eq_getElem hidx
  refine ⟨_, hsucc.trans hget, List.getElem_mem _, ?_⟩
  show (match r.vnode_hashes[get_nearest_hash_index r (r.generate_hash key)]? with
    | none => none
    | some h => dictGet r.nodes h)
    = dictGet r.nodes (r.vnode_hashes.get ⟨get_nearest_hash_index r (r.generate_hash key), hidx⟩)
  rw [hget]

/-- A successful build appends one dict entry per identifier (in call order)
and folds the hashes into the sorted position list. -/
theorem addAll_ok {ids : List String} : ∀ {r r2 : Ring},
    addAll r ids = .ok r2 → r.vnode_count = 1 →
    r2.generate_hash = r.generate_hash ∧ r2.vnode_count = 1 ∧
    r2.replica_count = r.replica_count ∧
    r2.nodes = r.nodes ++ ids.map (fun nid => (r.generate_hash (vnodeId nid), nid)) ∧
    r2.vnode_hashes
      = (ids.map (fun nid => r.generate_hash (vnodeId nid))).foldl insort r.vnode_hashes := by
  induction ids with
  | nil =>
    intro r r2 h h1
    simp only [addAll] at h
    cases h
    exact ⟨rfl, h1, rfl, by simp, by simp⟩
  | cons nid rest ih =>
    intro r r2 h h1
    rw [addAll] at h
    split at h
    next r1 hset =>
      rw [setitem_eq h1] at hset
      by_cases hc : dictContains r.nodes (r.generate_hash (vnodeId nid)) = true
      · rw [if_pos hc] at hset
        cases hset
      · rw [if_neg hc] at hset
        have hc2 : dictContains r.nodes (r.generate_hash (vnodeId nid)) = false := by
          cases hb : dictContains r.nodes (r.generate_hash (vnodeId nid))
          · rfl
          · exact absurd hb hc
        cases hset
        obtain ⟨hgen, hvc, hrc, hnodes, hhashes⟩ := ih h h1
        refine ⟨hgen, hvc, hrc, ?_, ?_⟩
        · rw [hnodes]
          rw [dictInsert_fresh nid hc2, List.map_cons, List.append_assoc]
          rfl
        · rw [hhashes]
          rw [List.map_cons, List.foldl_cons]
    next m s hset =>
      cases h

/-- Well-formedness is preserved by a successful build. -/
theorem WF_addAll {ids : List String} : ∀ {r r2 : Ring}, WF r →
    addAll r ids = .ok r2 → WF r2 := by
  induction ids with
  | nil =>
    intro r r2 hWF h
    simp only [addAll] at h
    cases h
    exact hWF
  | cons nid rest ih =>
    intro r r2 hWF h
    rw [addAll] at h
    split at h
    next r1 hset => exact ih (WF_setitem hWF hset) h
    next m s hset => cases h

/-- Python indexing at `idx - 2` for a cursor `idx < len` on a list with at
least two elements: either a plain non-negative access or one
negative-wraparound access from the end. -/
theorem pyGet_sub_two (l : List Nat) (idx : Nat) (hidx : idx < l.length)
    (hk : 2 ≤ l.length) :
    pyGet l ((idx : Int) - 2)
      = if 2 ≤ idx then l[idx - 2]? else l[l.length - (2 - idx)]? := by
  unfold pyGet
  by_cases hc : 2 ≤ idx
  · rw [if_pos hc]
    rw [if_neg (by omega)]
    have ht : ((idx : Int) - 2).toNat = idx - 2 := by omega
    rw [ht]
  · rw [if_neg hc]
    rw [if_pos (by omega)]
    rw [if_neg (by omega)]
    have ht : ((idx : Int) - 2 + l.length).toNat = l.length - (2 - idx) := by omega
    rw [ht]

/-- Python indexing at `idx - 1`, the same dichotomy as `pyGet_sub_two`. -/
theorem pyGet_sub_one (l : List Nat) (idx : Nat) (hidx : idx < l.length)
    (hk : 1 ≤ l.length) :
    pyGet l ((idx : Int) - 1)
      = if 1 ≤ idx then l[idx - 1]? else l[l.length - (1 - idx)]? := by
  unfold pyGet
  by_cases hc : 1 ≤ idx
  · rw [if_pos hc]
    rw [if_neg (by omega)]
    have ht : ((idx : Int) - 1).toNat = idx - 1 := by omega
    rw [ht]
  · rw [if_neg hc]
    rw [if_pos (by omega)]
    rw [if_neg (by omega)]
    have ht : ((idx : Int) - 1 + l.length).toNat = l.length - (1 - idx) := by omega
    rw [ht]

/-! ### The claims -/

/-- C1: for every key on a non-empty well-formed ring, resolve
(`Ring.__getitem__` / `get_node_for_key`) returns the node owning the smallest
ring position strictly greater than `hash(key)`; if no position is strictly
greater, it wraps around to the node at the smallest position in the ring.
`ring_successor` is exactly that successor-or-wrap rule, written from the
claim's words, and `dictGet r.nodes p` is "the node owning position `p`". -/
theorem C1_resolve_successor (r : Ring) (key : String) (hWF : WF r)
    (hne : r.vnode_hashes ≠ []) :
    ∃ p, ring_successor r.vnode_hashes (r.generate_hash key) = some p ∧
      getitem r key = dictGet r.nodes p := by
  obtain ⟨_, hsort, _⟩ := hWF
  obtain ⟨p, hp, _, hg⟩ := getitem_eq hsort hne key
  exact ⟨p, hp, hg⟩

theorem C1_witness :
    ∃ p, ring_successor ringABC.vnode_hashes (ringABC.generate_hash "key1") = some p ∧
      getitem ringABC "key1" = dictGet ringABC.nodes p :=
  C1_resolve_successor ringABC "key1" (by decide) (by decide)

/-- C2: for every key, if at least one node is registered on a well-formed
ring, resolve (`Ring.__getitem__`) does not fail and the hostname it returns
is one of the currently-registered nodes (`get_all_hosts`). -/
theorem C2_resolve_total (r : Ring) (key : String) (hWF : WF r)
    (hne : r.vnode_hashes ≠ []) :
    ∃ host, getitem r key = some host ∧ host ∈ get_all_hosts r := by
  obtain ⟨_, hsort, hperm⟩ := hWF
  obtain ⟨p, _, hmem, hg⟩ := getitem_eq hsort hne key
  have hkey : p ∈ r.nodes.map Prod.fst := hperm.mem_iff.1 hmem
  obtain ⟨v, hv⟩ := dictGet_isSome_of_mem hkey
  exact ⟨v, by rw [hg, hv], dictGet_mem_values hv⟩

theorem C2_witness :
    ∃ host, getitem ringABC "key1" = some host ∧ host ∈ get_all_hosts ringABC :=
  C2_resolve_total ringABC "key1" (by decide) (by decide)

/-- C6 counterexample: re-adding the existing node `a` (position `3`, owned by
`a` itself — not by a different node) still raises the duplicate error, so
"fails if and only if the position is already occupied by a *different* node"
is false: the code checks occupancy only, not ownership. -/
theorem C6_counterexample :
    (setitem ringABC "a" "a").isOk = false ∧
    dictGet ringABC.nodes (ringABC.generate_hash (vnodeId "a")) = some "a" :=
  ⟨by decide, by decide⟩

/-- C6 (amended): `__setitem__` fails with the duplicate-position error if and
only if the computed hash position is already occupied by *any* node
(including a previous insertion of the same identifier), and on such a failure
the prior ring state is returned fully intact. -/
theorem C6_duplicate_check (r : Ring) (nid host : String) (h1 : r.vnode_count = 1) :
    (dictContains r.nodes (r.generate_hash (vnodeId nid)) = true →
      setitem r nid host
        = .err ("Node id " ++ vnodeId nid ++ " is already present") r) ∧
    (dictContains r.nodes (r.generate_hash (vnodeId nid)) = false →
      (setitem r nid host).isOk = true) := by
  rw [setitem_eq h1]
  constructor
  · intro hc
    rw [if_pos hc]
  · intro hc
    rw [if_neg (by simp [hc])]
    rfl

theorem C6_witness :
    setitem ringABC "a" "a"
      = .err ("Node id " ++ vnodeId "a" ++ " is already present") ringABC ∧
    (setitem ringABC "dddd" "dddd").isOk = true :=
  ⟨(C6_duplicate_check ringABC "a" "a" (by decide)).1 (by decide),
   (C6_duplicate_check ringABC "dddd" "dddd" (by decide)).2 (by decide)⟩

/-- C7 counterexample: removing node `a` from the concrete ring succeeds, yet
the membership mapping `_vnode_mapping` still records `a ↦ [3]` afterwards —
`__delitem__` never deletes from `_vnode_mapping`, so the removed position is
*not* removed from both structures as the claim states. -/
theorem C7_counterexample :
    (delitem ringABC "a").isOk = true ∧
    mappingGet (delitem ringABC "a").state.vnode_mapping "a" = some [3] :=
  ⟨by decide, by decide⟩

/-- C7 (amended): after a successful `__delitem__` every recorded position of
the node has been removed from the sorted position sequence and from the
position-to-host dict, but the node's entry in the `_vnode_mapping` membership
mapping is left behind unchanged (the mapping is never cleaned up). -/
theorem C7_remove_cleans_sequences (r r2 : Ring) (nid : String) (hWF : WF r)
    (h : delitem r nid = .ok r2) :
    (∀ v ∈ (mappingGet r.vnode_mapping nid).getD [],
      v ∉ r2.vnode_hashes ∧ dictContains r2.nodes v = false) ∧
    r2.vnode_mapping = r.vnode_mapping := by
  obtain ⟨_, hsort, hperm⟩ := hWF
  unfold delitem at h
  split at h
  next => cases h
  next hashes hm =>
    by_cases hemp : hashes.isEmpty
    · rw [if_pos hemp] at h
      cases h
    · rw [if_neg hemp] at h
      have hkeys : (r.nodes.map Prod.fst).Nodup :=
        (hperm.nodup_iff).1 hsort.nodup
      refine ⟨?_, (delitemLoop_ok_fields h).1⟩
      intro v hv
      rw [hm] at hv
      exact delitemLoop_absent hsort hkeys h v (by simpa using hv)

theorem C7_witness :
    (∀ v ∈ (mappingGet ringABC.vnode_mapping "a").getD [],
      v ∉ (delitem ringABC "a").state.vnode_hashes ∧
      dictContains (delitem ringABC "a").state.nodes v = false) ∧
    (delitem ringABC "a").state.vnode_mapping = ringABC.vnode_mapping :=
  C7_remove_cleans_sequences ringABC _ "a" (by decide) rfl

/-- C8: from any well-formed ring, after `add_node(X)` (= `__setitem__ X X`)
succeeds, `contains X` is true; after a subsequent successful
`remove_node(X)` (= `__delitem__ X`), `contains X` is false; and `__delitem__`
on an identifier with no recorded positions raises the NodeNotFound error
while leaving the ring state unchanged (the error carries the untouched
state `r`). -/
theorem C8_membership_roundtrip (r : Ring) (X : String) (hWF : WF r) :
    (∀ r1, setitem r X X = .ok r1 →
      contains r1 X = some true ∧
      ∀ r2, delitem r1 X = .ok r2 → contains r2 X = some false) ∧
    ((mappingGet r.vnode_mapping X = none ∨ mappingGet r.vnode_mapping X = some []) →
      delitem r X = .err "Node id not in the ring" r) := by
  constructor
  · intro r1 hset
    have hWF1 : WF r1 := WF_setitem hWF hset
    obtain ⟨hvc1, hsort1, hperm1⟩ := hWF1
    have hfields : r1.generate_hash = r.generate_hash ∧
        r1.nodes = dictInsert r.nodes (r.generate_hash (vnodeId X)) X ∧
        r1.vnode_mapping = mappingAdd r.vnode_mapping X (r.generate_hash (vnodeId X)) := by
      rw [setitem_eq hWF.1] at hset
      by_cases hc : dictContains r.nodes (r.generate_hash (vnodeId X)) = true
      · rw [if_pos hc] at hset
        cases hset
      · rw [if_neg (by simp [hc])] at hset
        cases hset
        exact ⟨rfl, rfl, rfl⟩
    obtain ⟨hgen1, hnodes1, hmap1⟩ := hfields
    constructor
    · rw [contains_eq hvc1, hgen1, hnodes1, dictContains_insert_self]
    · intro r2 hdel
      have hkeys1 : (r1.nodes.map Prod.fst).Nodup :=
        (hperm1.nodup_iff).1 hsort1.nodup
      have hmem : r.generate_hash (vnodeId X)
          ∈ (mappingGet r1.vnode_mapping X).getD [] := by
        rw [hmap1]
        exact mappingAdd_mem _ _ _
      unfold delitem at hdel
      split at hdel
      next hm =>
        rw [hm] at hmem
        simp at hmem
      next hashes hm =>
        by_cases hemp : hashes.isEmpty
        · rw [if_pos hemp] at hdel
          cases hdel
        · rw [if_neg hemp] at hdel
          rw [hm] at hmem
          have habs := delitemLoop_absent hsort1 hkeys1 hdel
            (r.generate_hash (vnodeId X)) (by simpa using hmem)
          obtain ⟨hfmap, hfgen, hfvc, _, _, _⟩ := delitemLoop_ok_fields hdel
          rw [contains_eq (hfvc.trans hvc1), hfgen, hgen1, habs.2]
  · intro hcase
    unfold delitem
    rcases hcase with hm | hm
    · rw [hm]
    · rw [hm]
      rfl

theorem C8_witness :
    contains (setitem ringABC "dddd" "dddd").state "dddd" = some true ∧
    contains (delitem (setitem ringABC "dddd" "dddd").state "dddd").state "dddd"
      = some false ∧
    delitem ringABC "zz" = .err "Node id not in the ring" ringABC := by
  have h1 := (C8_membership_roundtrip ringABC "dddd" (by decide)).1
    ((setitem ringABC "dddd" "dddd").state) rfl
  have h2 := (C8_membership_roundtrip ringABC "zz" (by decide)).2 (Or.inl (by decide))
  exact ⟨h1.1, h1.2 _ rfl, h2⟩

/-- C10: with exactly one registered node, `get_key_range` applied to that node
fails with the out-of-range indexing error (index `-2` on a one-element list,
modelled by `none`) instead of returning a pair; with exactly two registered
nodes it returns the other node's position as exclusive start and the queried
node's own position as inclusive end, via negative-index wraparound. -/
theorem C10_key_range_small_rings (r : Ring) (X : String) (h1 : r.vnode_count = 1) :
    (r.vnode_hashes = [r.generate_hash (vnodeId X)] → get_key_range r X = none) ∧
    (∀ h0 hb, r.vnode_hashes = [h0, hb] → h0 < hb →
      (r.generate_hash (vnodeId X) = h0 → get_key_range r X = some (hb, h0)) ∧
      (r.generate_hash (vnodeId X) = hb → get_key_range r X = some (h0, hb))) := by
  constructor
  · intro hlist
    rw [get_key_range_eq h1]
    have hidx : get_nearest_hash_index r (r.generate_hash (vnodeId X)) = 0 := by
      unfold get_nearest_hash_index bisect_right
      rw [hlist]
      simp
    rw [hidx, hlist]
    simp [pyGet]
  · intro h0 hb hlist hlt
    have hne : ¬ (hb ≤ h0) := Nat.not_le.2 hlt
    constructor
    · intro hhash
      rw [get_key_range_eq h1]
      have hidx : get_nearest_hash_index r (r.generate_hash (vnodeId X)) = 1 := by
        unfold get_nearest_hash_index bisect_right
        rw [hlist, hhash]
        simp [List.countP_cons, hne]
      rw [hidx, hlist]
      simp [pyGet]
    · intro hhash
      rw [get_key_range_eq h1]
      have hidx : get_nearest_hash_index r (r.generate_hash (vnodeId X)) = 0 := by
        unfold get_nearest_hash_index bisect_right
        rw [hlist, hhash]
        simp [List.countP_cons, Nat.le_of_lt hlt]
      rw [hidx, hlist]
      simp [pyGet]

theorem C10_witness :
    get_key_range ringA "a" = none ∧
    get_key_range ringAB "a" = some (4, 3) ∧
    get_key_range ringAB "bb" = some (3, 4) := by
  have hone := (C10_key_range_small_rings ringA "a" (by decide)).1 (by decide)
  have htwo := (C10_key_range_small_rings ringAB "a" (by decide)).2 3 4
    (by decide) (by decide)
  have htwo2 := (C10_key_range_small_rings ringAB "bb" (by decide)).2 3 4
    (by decide) (by decide)
  exact ⟨hone, htwo.1 (by decide), htwo2.2 (by decide)⟩

/-- C4 counterexample: on the two-node ring with `replica_count = 1`, handoff
for node `a` (own position `3`) returns `a` itself, whereas walking forward
exactly `replica_count = 1` ring positions from position `3` lands on position
`4`, owned by `bb` — the code walks one position further than the claim says. -/
theorem C4_counterexample :
    get_handoff_node ringAB1 "a" = some "a" ∧
    (ring_succ_iter ringAB1.vnode_hashes (ringAB1.generate_hash (vnodeId "a"))
        ringAB1.replica_count).bind (dictGet ringAB1.nodes) = some "bb" :=
  ⟨by decide, by decide⟩

/-- C4 (amended): for every node present in a non-empty well-formed ring,
`get_handoff_node` returns the node reached by walking forward exactly
`replica_count + 1` ring positions (with wraparound) from that node's own ring
position — equivalently, `replica_count` positions from the successor of its
position, because `_get_nearest_hash_index` of the node's own hash is already
one past the node's own index. -/
theorem C4_handoff (r : Ring) (X : String) (i : Nat) (hWF : WF r)
    (hown : r.vnode_hashes[i]? = some (r.generate_hash (vnodeId X))) :
    get_handoff_node r X
      = (ring_succ_iter r.vnode_hashes (r.generate_hash (vnodeId X))
          (r.replica_count + 1)).bind (dictGet r.nodes) := by
  obtain ⟨h1, hsort, _⟩ := hWF
  have hil : i < r.vnode_hashes.length := (List.getElem?_eq_some_iff.1 hown).1
  have hlen : 0 < r.vnode_hashes.length := Nat.lt_of_le_of_lt (Nat.zero_le i) hil
  have hnear : get_nearest_hash_index r (r.generate_hash (vnodeId X))
      = (i + 1) % r.vnode_hashes.length := get_nearest_present hsort hown
  have hiter : ring_succ_iter r.vnode_hashes (r.generate_hash (vnodeId X))
      (r.replica_count + 1)
      = r.vnode_hashes[(i + (r.replica_count + 1)) % r.vnode_hashes.length]? :=
    ring_succ_iter_getElem hsort hown (r.replica_count + 1)
  have hidx2 : ((i + 1) % r.vnode_hashes.length + r.replica_count)
      % r.vnode_hashes.length
      = (i + (r.replica_count + 1)) % r.vnode_hashes.length := by
    rw [Nat.mod_add_mod, ← Nat.add_assoc, Nat.add_comm (i + 1) r.replica_count]
    rw [← Nat.add_assoc, Nat.add_comm r.replica_count i, Nat.add_assoc]
  have hmlt : (i + (r.replica_count + 1)) % r.vnode_hashes.length
      < r.vnode_hashes.length := Nat.mod_lt _ hlen
  rw [get_handoff_node_eq h1, hnear, hiter, hidx2]
  rw [if_neg (by omega)]
  rw [List.getElem?_eq_getElem hmlt]
  rfl

theorem C4_witness :
    get_handoff_node ringABC "a"
      = (ring_succ_iter ringABC.vnode_hashes (ringABC.generate_hash (vnodeId "a"))
          (ringABC.replica_count + 1)).bind (dictGet ringABC.nodes) :=
  C4_handoff ringABC "a" 0 (by decide) (by decide)

/-- C5 counterexample: on the three-node ring (positions `3 < 4 < 5`), node
`a` owns position `3` at index `0`; the two positions immediately preceding
index `0` in ring order are `(4, 5)` (indices `1` and `2` wrapping backwards),
but `get_key_range` returns `(5, 3)` — the predecessor position and the node's
own position. -/
theorem C5_counterexample :
    claimed_key_range ringABC "a" = some (4, 5) ∧
    get_key_range ringABC "a" = some (5, 3) :=
  ⟨by decide, by decide⟩

/-- C5 (amended): for every node present in a well-formed ring with at least 3
nodes, `get_key_range` locates the index one past the node's own position's
index (the successor-search result on the node's own hash) and returns the two
positions immediately preceding that index: the node's predecessor position as
exclusive start, and the node's own position as inclusive end. -/
theorem C5_key_range (r : Ring) (X : String) (i : Nat) (hWF : WF r)
    (h3 : 3 ≤ r.vnode_hashes.length)
    (hown : r.vnode_hashes[i]? = some (r.generate_hash (vnodeId X))) :
    ∃ pred,
      r.vnode_hashes[(i + r.vnode_hashes.length - 1) % r.vnode_hashes.length]?
        = some pred ∧
      get_key_range r X = some (pred, r.generate_hash (vnodeId X)) := by
  obtain ⟨h1, hsort, _⟩ := hWF
  have hil : i < r.vnode_hashes.length := (List.getElem?_eq_some_iff.1 hown).1
  have hlen : 0 < r.vnode_hashes.length := by omega
  have hnear : get_nearest_hash_index r (r.generate_hash (vnodeId X))
      = (i + 1) % r.vnode_hashes.length := get_nearest_present hsort hown
  have hpredlt : (i + r.vnode_hashes.length - 1) % r.vnode_hashes.length
      < r.vnode_hashes.length := Nat.mod_lt _ hlen
  refine ⟨r.vnode_hashes.get ⟨(i + r.vnode_hashes.length - 1) % r.vnode_hashes.length, hpredlt⟩,
    List.getElem?_eq_getElem hpredlt, ?_⟩
  rw [get_key_range_eq h1, hnear]
  have hmod2 : (i + 1) % r.vnode_hashes.length < r.vnode_hashes.length :=
    Nat.mod_lt _ hlen
  rw [pyGet_sub_two _ _ hmod2 (by omega), pyGet_sub_one _ _ hmod2 (by omega)]
  by_cases hA : i + 1 < r.vnode_hashes.length
  · have hidx : (i + 1) % r.vnode_hashes.length = i + 1 := Nat.mod_eq_of_lt hA
    rw [hidx]
    have hend : r.vnode_hashes[i + 1 - 1]? = some (r.generate_hash (vnodeId X)) := by
      simpa using hown
    by_cases hB : 1 ≤ i
    · have hpeq : (i + r.vnode_hashes.length - 1) % r.vnode_hashes.length = i - 1 := by
        have he : i + r.vnode_hashes.length - 1 = r.vnode_hashes.length + (i - 1) := by
          omega
        rw [he, Nat.add_mod_left, Nat.mod_eq_of_lt (by omega)]
      have hpred2 : r.vnode_hashes[i + 1 - 2]?
          = some (r.vnode_hashes.get ⟨(i + r.vnode_hashes.length - 1)
              % r.vnode_hashes.length, hpredlt⟩) := by
        have hst : i + 1 - 2
            = (i + r.vnode_hashes.length - 1) % r.vnode_hashes.length := by
          rw [hpeq]
          omega
        rw [hst]
        exact List.getElem?_eq_getElem hpredlt
      rw [if_pos (by omega : 2 ≤ i + 1), if_pos (by omega : 1 ≤ i + 1), hpred2, hend]
    · have hpeq : (i + r.vnode_hashes.length - 1) % r.vnode_hashes.length
          = r.vnode_hashes.length - 1 := by
        have he : i + r.vnode_hashes.length - 1 = r.vnode_hashes.length - 1 := by
          omega
        rw [he, Nat.mod_eq_of_lt (by omega)]
      have hpred2 : r.vnode_hashes[r.vnode_hashes.length - (2 - (i + 1))]?
          = some (r.vnode_hashes.get ⟨(i + r.vnode_hashes.length - 1)
              % r.vnode_hashes.length, hpredlt⟩) := by
        have hst : r.vnode_hashes.length - (2 - (i + 1))
            = (i + r.vnode_hashes.length - 1) % r.vnode_hashes.length := by
          rw [hpeq]
          omega
        rw [hst]
        exact List.getElem?_eq_getElem hpredlt
      rw [if_neg (by omega : ¬ 2 ≤ i + 1), if_pos (by omega : 1 ≤ i + 1),
        hpred2, hend]
  · have hieq : i + 1 = r.vnode_hashes.length := by omega
    have hidx : (i + 1) % r.vnode_hashes.length = 0 := by
      rw [hieq, Nat.mod_self]
    rw [hidx]
    have hpeq : (i + r.vnode_hashes.length - 1) % r.vnode_hashes.length
        = r.vnode_hashes.length - 2 := by
      have he : i + r.vnode_hashes.length - 1
          = r.vnode_hashes.length + (r.vnode_hashes.length - 2) := by
        omega
      rw [he, Nat.add_mod_left, Nat.mod_eq_of_lt (by omega)]
    have hpred2 : r.vnode_hashes[r.vnode_hashes.length - (2 - 0)]?
        = some (r.vnode_hashes.get ⟨(i + r.vnode_hashes.length - 1)
            % r.vnode_hashes.length, hpredlt⟩) := by
      have hst : r.vnode_hashes.length - (2 - 0)
          = (i + r.vnode_hashes.length - 1) % r.vnode_hashes.length := by
        rw [hpeq]
      rw [hst]
      exact List.getElem?_eq_getElem hpredlt
    have hend : r.vnode_hashes[r.vnode_hashes.length - (1 - 0)]?
        = some (r.generate_hash (vnodeId X)) := by
      have hen : r.vnode_hashes.length - (1 - 0) = i := by omega
      rw [hen]
      exact hown
    rw [if_neg (by omega : ¬ 2 ≤ 0), if_neg (by omega : ¬ 1 ≤ 0), hpred2, hend]

theorem C5_witness :
    ∃ pred,
      ringABC.vnode_hashes[(2 + ringABC.vnode_hashes.length - 1)
        % ringABC.vnode_hashes.length]? = some pred ∧
      get_key_range ringABC "ccc" = some (pred, ringABC.generate_hash (vnodeId "ccc")) :=
  C5_key_range ringABC "ccc" 2 (by decide) (by decide) (by decide)

/-! ### Lemmas for the replica walk -/

theorem ring_successor_eq_nearest {r : Ring}
    (hsort : r.vnode_hashes.Sorted (· < ·)) (hne : r.vnode_hashes ≠ []) (k : Nat) :
    ring_successor r.vnode_hashes k
      = r.vnode_hashes[get_nearest_hash_index r k]? := by
  rw [ring_successor_eq_getElem hsort hne]
  rfl

theorem getitem_eq_nearest {r : Ring} (key : String)
    (hp : get_nearest_hash_index r (r.generate_hash key) < r.vnode_hashes.length) :
    getitem r key
      = dictGet r.nodes
          (r.vnode_hashes.get ⟨get_nearest_hash_index r (r.generate_hash key), hp⟩) := by
  show (match r.vnode_hashes[get_nearest_hash_index r (r.generate_hash key)]? with
    | none => none
    | some h => dictGet r.nodes h)
    = dictGet r.nodes (r.vnode_hashes.get ⟨get_nearest_hash_index r (r.generate_hash key), hp⟩)
  rw [List.getElem?_eq_getElem hp]
  rfl

theorem range1_nodup (s n : Nat) : (List.range' s n).Nodup := by
  induction n generalizing s with
  | zero => simp
  | succ m ih =>
    rw [List.range'_succ]
    refine List.Nodup.cons ?_ (ih (s + 1))
    intro hmem
    rcases List.mem_range'.1 hmem with ⟨i, _, he⟩
    omega

/-- Two numbers from a window shorter than the modulus that agree modulo the
modulus are equal. -/
theorem mod_eq_window {n x y : Nat} (hxy : x ≤ y) (hw : y - x < n)
    (h : x % n = y % n) : x = y := by
  have hdvd : n ∣ y - x := (Nat.modEq_iff_dvd' hxy).1 h
  have hz : y - x = 0 := Nat.eq_zero_of_dvd_of_lt hdvd hw
  omega

/-- If every loop index resolves to a position and a hostname, the replica
loop returns the mapped hostname list. -/
theorem replicasLoop_eq_map {r : Ring} (g : Nat → String) :
    ∀ {xs : List Nat}, r.vnode_hashes.length ≠ 0 →
    (∀ x ∈ xs, ∃ pos, r.vnode_hashes[x % r.vnode_hashes.length]? = some pos ∧
      dictGet r.nodes pos = some (g x)) →
    replicasLoop r xs = some (xs.map g) := by
  intro xs
  induction xs with
  | nil =>
    intro _ _
    rfl
  | cons x rest ih =>
    intro hne h
    obtain ⟨pos, hpos, hget⟩ := h x (List.mem_cons_self x rest)
    have hrest := ih hne (fun y hy => h y (List.mem_cons_of_mem x hy))
    rw [replicasLoop, if_neg hne, hpos]
    show (match dictGet r.nodes pos with
      | none => none
      | some host => (replicasLoop r rest).map (fun tail => host :: tail))
      = some ((x :: rest).map g)
    rw [hget, hrest]
    rfl

/-- C3 counterexample: on the two-node ring with `replica_count = 2`
(exceeding `size() - 1 = 1`), the replica list for key `k` is
`[bb, a]` while the primary for `k` is `a` — the list *does* include the
primary, so the unconditional "never includes the key's primary node" is
false; only the conditional part survives. -/
theorem C3_counterexample :
    getitem ringAB "k" = some "a" ∧
    get_replicas_for_key ringAB "k" = some ["bb", "a"] :=
  ⟨by decide, by decide⟩

/-- C3 (amended): whenever `replica_count ≤ size() - 1`, for every key on a
non-empty well-formed ring whose hostnames are pairwise distinct, the replica
list exists, has exactly `replica_count` entries, is duplicate-free, excludes
the key's primary node, and lists in position `j` the owner of the
`(j+1)`-fold ring successor of the primary's position — ring-forward order
starting immediately after the primary. -/
theorem C3_replicas (r : Ring) (key : String) (hWF : WF r)
    (hvals : (r.nodes.map Prod.snd).Nodup)
    (hne : r.vnode_hashes ≠ [])
    (hrc : r.replica_count ≤ size r - 1) :
    ∃ reps prim primHost,
      get_replicas_for_key r key = some reps ∧
      ring_successor r.vnode_hashes (r.generate_hash key) = some prim ∧
      getitem r key = some primHost ∧
      dictGet r.nodes prim = some primHost ∧
      reps.length = r.replica_count ∧
      reps.Nodup ∧
      primHost ∉ reps ∧
      (∀ j, j < r.replica_count →
        reps[j]? = (ring_succ_iter r.vnode_hashes prim (j + 1)).bind
          (dictGet r.nodes)) := by
  obtain ⟨h1, hsort, hperm⟩ := hWF
  have hkeys : (r.nodes.map Prod.fst).Nodup := (hperm.nodup_iff).1 hsort.nodup
  have hlen : 0 < r.vnode_hashes.length := List.length_pos.2 hne
  have hsize : size r = r.vnode_hashes.length := by
    unfold size
    rw [h1, Nat.div_one, ← List.length_map r.nodes Prod.fst, hperm.length_eq]
  have hrcn : r.replica_count < r.vnode_hashes.length := by
    rw [hsize] at hrc
    omega
  have hp : get_nearest_hash_index r (r.generate_hash key) < r.vnode_hashes.length :=
    get_nearest_lt hne _
  have hprim? : r.vnode_hashes[get_nearest_hash_index r (r.generate_hash key)]?
      = some (r.vnode_hashes.get ⟨get_nearest_hash_index r (r.generate_hash key), hp⟩) :=
    List.getElem?_eq_getElem hp
  have hsucc : ring_successor r.vnode_hashes (r.generate_hash key)
      = some (r.vnode_hashes.get ⟨get_nearest_hash_index r (r.generate_hash key), hp⟩) :=
    (ring_successor_eq_nearest hsort hne _).trans hprim?
  have hlook : ∀ m : Nat, ∀ hm : m < r.vnode_hashes.length,
      ∃ host, dictGet r.nodes (r.vnode_hashes.get ⟨m, hm⟩) = some host := by
    intro m hm
    have hmem : (r.vnode_hashes.get ⟨m, hm⟩) ∈ r.vnode_hashes := List.getElem_mem _
    exact dictGet_isSome_of_mem (hperm.mem_iff.1 hmem)
  classical
  let g : Nat → String := fun x =>
    ((r.vnode_hashes[x % r.vnode_hashes.length]?).bind (dictGet r.nodes)).getD ""
  have hgspec : ∀ x : Nat,
      (r.vnode_hashes[x % r.vnode_hashes.length]?).bind (dictGet r.nodes)
        = some (g x) := by
    intro x
    have hm : x % r.vnode_hashes.length < r.vnode_hashes.length :=
      Nat.mod_lt _ hlen
    obtain ⟨host, hh⟩ := hlook _ hm
    show (r.vnode_hashes[x % r.vnode_hashes.length]?).bind (dictGet r.nodes)
      = some (((r.vnode_hashes[x % r.vnode_hashes.length]?).bind
        (dictGet r.nodes)).getD "")
    rw [List.getElem?_eq_getElem hm]
    show dictGet r.nodes (r.vnode_hashes.get ⟨x % r.vnode_hashes.length, hm⟩)
      = some ((dictGet r.nodes (r.vnode_hashes.get ⟨x % r.vnode_hashes.length, hm⟩)).getD "")
    rw [hh]
    rfl
  have hg2 : ∀ x : Nat, ∀ hm : x % r.vnode_hashes.length < r.vnode_hashes.length,
      dictGet r.nodes (r.vnode_hashes.get ⟨x % r.vnode_hashes.length, hm⟩)
        = some (g x) := by
    intro x hm
    have := hgspec x
    rw [List.getElem?_eq_getElem hm] at this
    simpa using this
  have hreps : get_replicas_for_key r key
      = some ((List.range' (get_nearest_hash_index r (r.generate_hash key) + 1)
          r.replica_count).map g) := by
    have hdef : get_replicas_for_key r key
        = replicasLoop r (List.range'
            (get_nearest_hash_index r (r.generate_hash key) + 1) r.replica_count) :=
      rfl
    rw [hdef]
    refine replicasLoop_eq_map g (by omega) ?_
    intro x _
    have hm : x % r.vnode_hashes.length < r.vnode_hashes.length :=
      Nat.mod_lt _ hlen
    exact ⟨_, List.getElem?_eq_getElem hm, hg2 x hm⟩
  obtain ⟨primHost, hprimHost⟩ := hlook _ hp
  have hprimEq : getitem r key = some primHost := by
    rw [getitem_eq_nearest key hp]
    exact hprimHost
  have hposinj : ∀ a b : Nat, ∀ ha : a < r.vnode_hashes.length,
      ∀ hb : b < r.vnode_hashes.length,
      (r.vnode_hashes.get ⟨a, ha⟩) = (r.vnode_hashes.get ⟨b, hb⟩) → a = b := by
    intro a b ha hb he
    exact (List.Nodup.getElem_inj_iff hsort.nodup).1 he
  have hginj : ∀ x y : Nat, g x = g y →
      x % r.vnode_hashes.length = y % r.vnode_hashes.length := by
    intro x y he
    have hmx : x % r.vnode_hashes.length < r.vnode_hashes.length :=
      Nat.mod_lt _ hlen
    have hmy : y % r.vnode_hashes.length < r.vnode_hashes.length :=
      Nat.mod_lt _ hlen
    have hx2 := hg2 x hmx
    have hy2 := hg2 y hmy
    rw [he] at hx2
    exact hposinj _ _ hmx hmy (dictGet_inj hkeys hvals hx2 hy2)
  have hwindow : ∀ x ∈ List.range'
        (get_nearest_hash_index r (r.generate_hash key) + 1) r.replica_count,
      ∀ y ∈ List.range'
        (get_nearest_hash_index r (r.generate_hash key) + 1) r.replica_count,
      g x = g y → x = y := by
    intro x hx y hy he
    rcases List.mem_range'.1 hx with ⟨ix, hix, hxe⟩
    rcases List.mem_range'.1 hy with ⟨iy, hiy, hye⟩
    have hmod := hginj x y he
    rcases Nat.le_total x y with hle | hle
    · exact mod_eq_window hle (by omega) hmod
    · exact (mod_eq_window hle (by omega) hmod.symm).symm
  have hnodup : ((List.range'
      (get_nearest_hash_index r (r.generate_hash key) + 1)
      r.replica_count).map g).Nodup :=
    List.Nodup.map_on hwindow (range1_nodup _ _)
  have hnotmem : primHost ∉ (List.range'
      (get_nearest_hash_index r (r.generate_hash key) + 1)
      r.replica_count).map g := by
    intro hmem
    rcases List.mem_map.1 hmem with ⟨x, hx, hxe⟩
    rcases List.mem_range'.1 hx with ⟨ix, hix, hxeq⟩
    have hmx : x % r.vnode_hashes.length < r.vnode_hashes.length :=
      Nat.mod_lt _ hlen
    have hx2 := hg2 x hmx
    rw [hxe] at hx2
    have hkeq := dictGet_inj hkeys hvals hx2 hprimHost
    have hidx : x % r.vnode_hashes.length
        = get_nearest_hash_index r (r.generate_hash key) :=
      hposinj _ _ hmx hp hkeq
    have hpmod : get_nearest_hash_index r (r.generate_hash key)
        % r.vnode_hashes.length
        = get_nearest_hash_index r (r.generate_hash key) := Nat.mod_eq_of_lt hp
    have hxmod : get_nearest_hash_index r (r.generate_hash key)
        % r.vnode_hashes.length = x % r.vnode_hashes.length := by
      rw [hpmod, hidx]
    have hxp : get_nearest_hash_index r (r.generate_hash key) = x :=
      mod_eq_window (by omega) (by omega) hxmod
    omega
  refine ⟨_, _, primHost, hreps, hsucc, hprimEq, hprimHost, by simp, hnodup,
    hnotmem, ?_⟩
  intro j hj
  have hiter : ring_succ_iter r.vnode_hashes
      (r.vnode_hashes.get ⟨get_nearest_hash_index r (r.generate_hash key), hp⟩) (j + 1)
      = r.vnode_hashes[(get_nearest_hash_index r (r.generate_hash key) + (j + 1))
          % r.vnode_hashes.length]? :=
    ring_succ_iter_getElem hsort hprim? (j + 1)
  have hidx? : ((List.range'
      (get_nearest_hash_index r (r.generate_hash key) + 1)
      r.replica_count).map g)[j]?
      = some (g (get_nearest_hash_index r (r.generate_hash key) + 1 + j)) := by
    rw [List.getElem?_map, List.getElem?_range' _ _ hj]
    simp
  rw [hidx?, hiter]
  have harith : get_nearest_hash_index r (r.generate_hash key) + (j + 1)
      = get_nearest_hash_index r (r.generate_hash key) + 1 + j := by omega
  rw [harith]
  exact (hgspec _).symm

theorem C3_witness :
    ∃ reps prim primHost,
      get_replicas_for_key ringABC "k" = some reps ∧
      ring_successor ringABC.vnode_hashes (ringABC.generate_hash "k") = some prim ∧
      getitem ringABC "k" = some primHost ∧
      dictGet ringABC.nodes prim = some primHost ∧
      reps.length = ringABC.replica_count ∧
      reps.Nodup ∧
      primHost ∉ reps ∧
      (∀ j, j < ringABC.replica_count →
        reps[j]? = (ring_succ_iter ringABC.vnode_hashes prim (j + 1)).bind
          (dictGet ringABC.nodes)) :=
  C3_replicas ringABC "k" (by decide) (by decide) (by decide) (by decide)

/-! ### Lemmas for build-order independence -/

/-- A key lookup by `find?` is invariant under permutation of an association
list with duplicate-free keys. -/
theorem find?_key_perm {d1 d2 : List (Nat × String)} (hp : d1.Perm d2) :
    (d1.map Prod.fst).Nodup → ∀ k : Nat,
    d1.find? (fun q => q.1 == k) = d2.find? (fun q => q.1 == k) := by
  induction hp with
  | nil =>
    intro _ k
    rfl
  | cons x h ih =>
    intro hkeys k
    rw [List.map_cons, List.nodup_cons] at hkeys
    cases hx : (x.1 == k) with
    | true => simp [List.find?_cons, hx]
    | false =>
      simp only [List.find?_cons, hx, cond_false]
      exact ih hkeys.2 k
  | swap x y t =>
    intro hkeys k
    rw [List.map_cons, List.map_cons, List.nodup_cons, List.nodup_cons] at hkeys
    cases hy : (y.1 == k) with
    | true =>
      have h1 : y.1 = k := by simpa using hy
      have hxk : (x.1 == k) = false := by
        cases hxb : (x.1 == k) with
        | false => rfl
        | true =>
          exfalso
          apply hkeys.1
          have h2 : x.1 = k := by simpa using hxb
          rw [h1, ← h2]
          exact List.mem_cons_self _ _
      simp [List.find?_cons, hy, hxk]
    | false =>
      cases hx2 : (x.1 == k) with
      | true => simp [List.find?_cons, hy, hx2]
      | false => simp [List.find?_cons, hy, hx2]
  | trans h1 h2 ih1 ih2 =>
    intro hkeys k
    rw [ih1 hkeys k]
    exact ih2 (((h1.map Prod.fst).nodup_iff).1 hkeys) k

theorem dictGet_perm {d1 d2 : List (Nat × String)} (hp : d1.Perm d2)
    (hkeys : (d1.map Prod.fst).Nodup) (k : Nat) :
    dictGet d1 k = dictGet d2 k := by
  unfold dictGet
  rw [find?_key_perm hp hkeys k]

/-- Resolution only looks at the hash function, the sorted position list and
the key-indexed content of the dict. -/
theorem getitem_congr {ra rb : Ring} (hh : ra.generate_hash = rb.generate_hash)
    (hl : ra.vnode_hashes = rb.vnode_hashes)
    (hd : ∀ k, dictGet ra.nodes k = dictGet rb.nodes k) (key : String) :
    getitem ra key = getitem rb key := by
  have hidx : get_nearest_hash_index ra (ra.generate_hash key)
      = get_nearest_hash_index rb (rb.generate_hash key) := by
    unfold get_nearest_hash_index bisect_right
    rw [hh, hl]
  show (match ra.vnode_hashes[get_nearest_hash_index ra (ra.generate_hash key)]? with
    | none => none
    | some h => dictGet ra.nodes h)
    = (match rb.vnode_hashes[get_nearest_hash_index rb (rb.generate_hash key)]? with
    | none => none
    | some h => dictGet rb.nodes h)
  rw [hidx, hl]
  cases hsc : rb.vnode_hashes[get_nearest_hash_index rb (rb.generate_hash key)]? with
  | none => rfl
  | some v => exact hd v

/-- C9: on a fixed ring, resolve returns the same node on repeated calls (the
model is a pure function of the state), and two rings built by adding the same
identifiers in any two orders — both builds succeeding — resolve every key to
the same node: the sorted position list is order-independent and the dict is a
permutation with duplicate-free keys. -/
theorem C9_build_order_independent (f : String → Nat) (vc rc : Nat)
    (ids1 ids2 : List String) (r1 r2 : Ring)
    (hperm : ids1.Perm ids2)
    (h1 : addAll (mkRing vc rc f) ids1 = .ok r1)
    (h2 : addAll (mkRing vc rc f) ids2 = .ok r2) (key : String) :
    getitem r1 key = getitem r1 key ∧ getitem r1 key = getitem r2 key := by
  refine ⟨rfl, ?_⟩
  have hWF0 : WF (mkRing vc rc f) := ⟨rfl, by simp [mkRing], by simp [mkRing]⟩
  have hWF1 : WF r1 := WF_addAll hWF0 h1
  obtain ⟨hg1, _, _, hn1, hh1⟩ := addAll_ok h1 rfl
  obtain ⟨hg2, _, _, hn2, hh2⟩ := addAll_ok h2 rfl
  have hkeys1 : (r1.nodes.map Prod.fst).Nodup :=
    (hWF1.2.2.nodup_iff).1 hWF1.2.1.nodup
  have hhashes : r1.vnode_hashes = r2.vnode_hashes := by
    rw [hh1, hh2]
    exact foldl_insort_eq_of_perm
      (hperm.map (fun nid => (mkRing vc rc f).generate_hash (vnodeId nid)))
  have hnodes : r1.nodes.Perm r2.nodes := by
    rw [hn1, hn2]
    simpa using hperm.map
      (fun nid => ((mkRing vc rc f).generate_hash (vnodeId nid), nid))
  exact getitem_congr (hg1.trans hg2.symm) hhashes
    (fun k => dictGet_perm hnodes hkeys1 k) key

theorem C9_witness :
    getitem ringABC "key1" = getitem ringABC "key1" ∧
    getitem ringABC "key1" = getitem ringCBA "key1" :=
  C9_build_order_independent hashLen 1 2 ["a", "bb", "ccc"] ["ccc", "bb", "a"]
    ringABC ringCBA (by decide) rfl rfl "key1"

end Dynamo
